import Mathlib

/-!
Verification of the tinyml semantic-lowering / type-inference core
(`src/hir.rs` and `src/concrete/lowering.rs`).

The Rust `Type` uses mutable shared cells (`Variable(Arc<RwLock<Option<Type>>>)`)
for unification holes.  We embed this with an explicit store: each cell is a
natural-number identifier, and a `Store` maps identifiers to their current
bound value (absent = unbound).  Recursion that dereferences the store
(`unify`, the derived value-based equality) is not structurally decreasing in
Rust — on a cyclic store it diverges — so those functions take a fuel
parameter and return `none` on fuel exhaustion, modelling nontermination /
stack overflow.  Purely structural walks (`generalize`'s traversal,
`instantiate`) are embedded as structural recursions.
-/

/-- `Reference` from `abstr` (compared with `==` in the source); modelled as `Nat`. -/
abbrev Reference := Nat

/-- The HIR monomorphic type (`Type` in `src/hir.rs`); `Hole` carries the
identifier of its mutable `Variable` cell. -/
inductive Ty where
  | Any : Ty
  | Pair (elements : List Ty) : Ty
  | Tuple (elements : List Ty) : Ty
  | Fun (domain codomain : Ty) : Ty
  | App (name : Reference) (argument : Ty) : Ty
  | Local (inner : Ty) : Ty
  | Constructor (reference : Reference) : Ty
  | Meta (idx : Nat) : Ty
  | Hole (cell : Nat) : Ty

/-- The heap of `Variable` cells: cell id ↦ current contents (absent = unbound).
`Variable::update` prepends a binding; `Variable::value` is `List.lookup`. -/
abbrev Store := List (Nat × Ty)

/-- `UnificationError` from `src/hir.rs`. -/
inductive UnificationError where
  | IncompatibleTypes (lhs rhs : Ty) : UnificationError
  | IncompatibleConstructors (lhs rhs : Reference) : UnificationError
  | OccursCheck : UnificationError

/-- Result of an effectful unification call: the store after the call, and
`none` for `Ok(())` or `some e` for `Err(e)`.  (In Rust the cell mutations
survive an `Err` return, so the store is reported on both paths.) -/
abbrev UResult := Store × Option UnificationError

/-- The element-wise loop of the `Pair`/`Tuple` arms of `Type::unify`:
`for (l, r) in lelements.zip(relements) { l.unify(r)?; }`.  The unifier for a
single pair is passed in (it is `unify` at one less fuel). -/
def unifyList (u : Store → Ty → Ty → Option UResult) :
    Store → List (Ty × Ty) → Option UResult
  | σ, [] => some (σ, none)
  | σ, (a, b) :: rest =>
    match u σ a b with
    | none => none
    | some (σ1, some e) => some (σ1, some e)
    | some (σ1, none) => unifyList u σ1 rest

/-- `Type::unify` from `src/hir.rs`, arms in source order.  The Rust guarded
arm `(Constructor(l), Constructor(r)) if l == r => Ok(())` falls through — via
the non-matching arms for `App`/`Fun`/`Pair`/`Tuple`/`Hole` — to the late arm
`(Constructor(l), Constructor(r)) => Err(IncompatibleConstructors(l, r))`
when the guard fails; the `else` branch of the `Constructor` case below is
exactly that late arm.  Fuel is spent on every recursive call; `none` models
divergence. -/
def unify : Nat → Store → Ty → Ty → Option UResult
  | 0, _, _, _ => none
  | fuel + 1, σ, a, b =>
    match a, b with
    | .Any, _ => some (σ, none)
    | _, .Any => some (σ, none)
    | .Local lvar, .Local rvar => unify fuel σ lvar rvar
    | .Constructor lc, .Constructor rc =>
      if lc = rc then some (σ, none)
      else some (σ, some (.IncompatibleConstructors lc rc))
    | .App ln la, .App rn ra =>
      if ln = rn then unify fuel σ la ra
      else some (σ, some (.IncompatibleConstructors ln rn))
    | .Fun ldom lcod, .Fun rdom rcod =>
      match unify fuel σ ldom rdom with
      | none => none
      | some (σ1, some e) => some (σ1, some e)
      | some (σ1, none) => unify fuel σ1 lcod rcod
    | .Pair lel, .Pair rel => unifyList (unify fuel) σ (lel.zip rel)
    | .Tuple lel, .Tuple rel => unifyList (unify fuel) σ (lel.zip rel)
    | .Hole h, value =>
      match σ.lookup h with
      | some contents => unify fuel σ contents value
      | none => some ((h, value) :: σ, none)
    | value, .Hole h =>
      match σ.lookup h with
      | some contents => unify fuel σ contents value
      | none => some ((h, value) :: σ, none)
    | lhs, rhs => some (σ, some (.IncompatibleTypes lhs rhs))

/-- `Type::unify` with the late `(Constructor, Constructor)` arm removed: two
unequal constructors then fall to the final catch-all, which reports
`IncompatibleTypes`.  Used to decide whether that arm is observable. -/
def unifyNoCtorArm : Nat → Store → Ty → Ty → Option UResult
  | 0, _, _, _ => none
  | fuel + 1, σ, a, b =>
    match a, b with
    | .Any, _ => some (σ, none)
    | _, .Any => some (σ, none)
    | .Local lvar, .Local rvar => unifyNoCtorArm fuel σ lvar rvar
    | .Constructor lc, .Constructor rc =>
      if lc = rc then some (σ, none)
      else some (σ, some (.IncompatibleTypes (.Constructor lc) (.Constructor rc)))
    | .App ln la, .App rn ra =>
      if ln = rn then unifyNoCtorArm fuel σ la ra
      else some (σ, some (.IncompatibleConstructors ln rn))
    | .Fun ldom lcod, .Fun rdom rcod =>
      match unifyNoCtorArm fuel σ ldom rdom with
      | none => none
      | some (σ1, some e) => some (σ1, some e)
      | some (σ1, none) => unifyNoCtorArm fuel σ1 lcod rcod
    | .Pair lel, .Pair rel => unifyList (unifyNoCtorArm fuel) σ (lel.zip rel)
    | .Tuple lel, .Tuple rel => unifyList (unifyNoCtorArm fuel) σ (lel.zip rel)
    | .Hole h, value =>
      match σ.lookup h with
      | some contents => unifyNoCtorArm fuel σ contents value
      | none => some ((h, value) :: σ, none)
    | value, .Hole h =>
      match σ.lookup h with
      | some contents => unifyNoCtorArm fuel σ contents value
      | none => some ((h, value) :: σ, none)
    | lhs, rhs => some (σ, some (.IncompatibleTypes lhs rhs))

/-- The element-wise conjunction of the derived `Vec<Type>` equality:
lengths must agree and elements compare pairwise. -/
def tyEqList (e : Ty → Ty → Option Bool) : List Ty → List Ty → Option Bool
  | [], [] => some true
  | a :: as, b :: bs =>
    match e a b with
    | none => none
    | some false => some false
    | some true => tyEqList e as bs
  | _, _ => some false

/-- The derived `PartialEq for Type` together with `impl PartialEq for
Variable` (`src/hir.rs`): structural equality, except that two `Hole`s
compare their cells' *current contents* (`self.value() == other.value()`),
recursively dereferencing the store.  A `Hole` and a non-`Hole` are different
variants, hence unequal, with no dereference.  Fueled: contents comparison
re-enters the whole relation. -/
def tyEq : Nat → Store → Ty → Ty → Option Bool
  | 0, _, _, _ => none
  | fuel + 1, σ, a, b =>
    match a, b with
    | .Any, .Any => some true
    | .Pair l, .Pair r => tyEqList (tyEq fuel σ) l r
    | .Tuple l, .Tuple r => tyEqList (tyEq fuel σ) l r
    | .Fun d c, .Fun d2 c2 =>
      match tyEq fuel σ d d2 with
      | none => none
      | some false => some false
      | some true => tyEq fuel σ c c2
    | .App n x, .App m y => if n = m then tyEq fuel σ x y else some false
    | .Local x, .Local y => tyEq fuel σ x y
    | .Constructor x, .Constructor y => some (x == y)
    | .Meta i, .Meta j => some (i == j)
    | .Hole i, .Hole j =>
      match σ.lookup i, σ.lookup j with
      | none, none => some true
      | some x, some y => tyEq fuel σ x y
      | _, _ => some false
    | _, _ => some false

/-- `impl PartialEq for Variable`: `self.value() == other.value()` — the
`Option<Type>` comparison of the two cells' current contents. -/
def varEq (fuel : Nat) (σ : Store) (i j : Nat) : Option Bool :=
  match σ.lookup i, σ.lookup j with
  | none, none => some true
  | some x, some y => tyEq fuel σ x y
  | _, _ => some false

/-- `Scheme` from `src/hir.rs`. -/
structure Scheme where
  args : Nat
  mono : Ty

/-- Lookup in `generalize`'s `HashMap<Type, usize>`: keys are compared with
the value-based `Type` equality (`tyEq`); `none` propagates fuel exhaustion
of a key comparison. -/
def lookupByF (e : Ty → Ty → Option Bool) : List (Ty × Nat) → Ty → Option (Option Nat)
  | [], _ => some none
  | (k, i) :: rest, key =>
    match e k key with
    | none => none
    | some true => some (some i)
    | some false => lookupByF e rest key

mutual
/-- The `go` of `Type::generalize`: walks the type, threading the tracking
map `vars : HashMap<Type, usize>` (association list here); at a `Hole` it
performs `let idx = vars.len(); vars.entry(value).or_insert(idx)` with the
value-based key equality.  `fuel` only feeds the key comparisons. -/
def generalizeGo (fuel : Nat) (σ : Store) :
    List (Ty × Nat) → Ty → Option (List (Ty × Nat) × Ty)
  | vars, .Any => some (vars, .Any)
  | vars, .Pair es =>
    (generalizeGoList fuel σ vars es).map fun p => (p.1, .Pair p.2)
  | vars, .Tuple es =>
    (generalizeGoList fuel σ vars es).map fun p => (p.1, .Tuple p.2)
  | vars, .Fun d c =>
    match generalizeGo fuel σ vars d with
    | none => none
    | some (vars1, d1) =>
      match generalizeGo fuel σ vars1 c with
      | none => none
      | some (vars2, c1) => some (vars2, .Fun d1 c1)
  | vars, .App n a =>
    (generalizeGo fuel σ vars a).map fun p => (p.1, .App n p.2)
  | vars, .Local t =>
    (generalizeGo fuel σ vars t).map fun p => (p.1, .Local p.2)
  | vars, .Hole v =>
    match lookupByF (tyEq fuel σ) vars (.Hole v) with
    | none => none
    | some (some i) => some (vars, .Meta i)
    | some none => some (vars ++ [(.Hole v, vars.length)], .Meta vars.length)
  | vars, .Constructor c => some (vars, .Constructor c)
  | vars, .Meta m => some (vars, .Meta m)

/-- The `elements.into_iter().map(|e| go(vars, e)).collect()` loop of
`generalize`, threading `vars` left to right. -/
def generalizeGoList (fuel : Nat) (σ : Store) :
    List (Ty × Nat) → List Ty → Option (List (Ty × Nat) × List Ty)
  | vars, [] => some (vars, [])
  | vars, t :: ts =>
    match generalizeGo fuel σ vars t with
    | none => none
    | some (vars1, t1) =>
      match generalizeGoList fuel σ vars1 ts with
      | none => none
      | some (vars2, ts1) => some (vars2, t1 :: ts1)
end

/-- `Type::generalize`: runs the walk on an empty tracking map and packages
`Scheme { args: vars.len(), mono }`. -/
def Ty.generalize (fuel : Nat) (σ : Store) (t : Ty) : Option Scheme :=
  (generalizeGo fuel σ [] t).map fun p => { args := p.1.length, mono := p.2 }

mutual
/-- The `go` of `Scheme::instantiate`: the `holes` map sends `idx ∈ 0..args`
to a fresh unbound cell, modelled as cell id `fresh + idx`; a `Meta` outside
that range hits `.expect("can't index holes")` — modelled as `none`. -/
def instantiateGo (args fresh : Nat) : Ty → Option Ty
  | .Any => some .Any
  | .Pair es => (instantiateGoList args fresh es).map .Pair
  | .Tuple es => (instantiateGoList args fresh es).map .Tuple
  | .Fun d c =>
    match instantiateGo args fresh d, instantiateGo args fresh c with
    | some d1, some c1 => some (.Fun d1 c1)
    | _, _ => none
  | .App n a => (instantiateGo args fresh a).map (.App n)
  | .Local t => (instantiateGo args fresh t).map .Local
  | .Constructor c => some (.Constructor c)
  | .Meta idx => if idx < args then some (.Hole (fresh + idx)) else none
  | .Hole v => some (.Hole v)

/-- The element-wise `map … collect()` of `instantiate`'s `go`. -/
def instantiateGoList (args fresh : Nat) : List Ty → Option (List Ty)
  | [] => some []
  | t :: ts =>
    match instantiateGo args fresh t, instantiateGoList args fresh ts with
    | some t1, some ts1 => some (t1 :: ts1)
    | _, _ => none
end

/-- `Scheme::instantiate`: allocates `args` fresh unbound cells
`fresh, fresh+1, …` and replaces each `Meta i` by the corresponding fresh
hole.  Returns the instantiated type together with the next unused cell id;
`none` models the `expect` panic on a `Meta` outside `0..args`. -/
def Scheme.instantiate (s : Scheme) (fresh : Nat) : Option (Ty × Nat) :=
  (instantiateGo s.args fresh s.mono).map fun t => (t, fresh + s.args)

/-! ### Lowering context (`src/concrete/lowering.rs`) -/

/-- `Identifier` (name + location, both opaque here); modelled as `Nat`. -/
abbrev Identifier := Nat

/-- `Rc<abs::Definition>`: an opaque binding-site handle; identity modelled
as `Nat`. -/
abbrev Definition := Nat

/-- `UnresolvedVariableError` (`src/concrete/errors.rs`, unit struct). -/
structure UnresolvedVariableError where

/-- `UnresolvedConstructorError` (unit struct). -/
structure UnresolvedConstructorError where

/-- Modelled from the spec: `UnresolvedSymbolError` lives in
`src/concrete/errors.rs`, which is not among the provided sources.  §7 calls
it "`UnresolvedSymbol` (composite — carries which of variable/constructor
lookup failed)" and `lowering.rs` applies its two variant constructors
`UnresolvedSymbolError::UnresolvedConstructorError` /
`UnresolvedSymbolError::UnresolvedVariableError` to the respective
sub-errors, so it is the tagged union of the two. -/
inductive UnresolvedSymbolError where
  | UnresolvedConstructorError (e : UnresolvedConstructorError)
  | UnresolvedVariableError (e : UnresolvedVariableError)

/-- The scope state of `LoweringCtx` — the `variables`, `constructors` and
`types` maps (named `varScope`/`ctorScope`/`typeScope` here since `variables`
is reserved); the error sink, counter, position and debug gas play no part in
the lookup operations modelled here. -/
structure LoweringCtx where
  varScope : List (Identifier × Definition)
  ctorScope : List (Identifier × Definition)
  typeScope : List (Identifier × Definition)

/-- `LoweringCtx::lookup_variable`. -/
def LoweringCtx.lookupVariable (ctx : LoweringCtx) (name : Identifier) :
    Except UnresolvedVariableError Definition :=
  match ctx.varScope.lookup name with
  | some d => .ok d
  | none => .error {}

/-- `LoweringCtx::lookup_constructor`. -/
def LoweringCtx.lookupConstructor (ctx : LoweringCtx) (name : Identifier) :
    Except UnresolvedConstructorError Definition :=
  match ctx.ctorScope.lookup name with
  | some d => .ok d
  | none => .error {}

/-- `LoweringCtx::lookup`:
`self.lookup_constructor(name).map_err(UnresolvedConstructorError)
     .or_else(|_| self.lookup_variable(name))
     .map_err(UnresolvedVariableError)`.
Note the final `map_err` applies to the `or_else` result, whose error type is
the raw `UnresolvedVariableError` of `lookup_variable`. -/
def LoweringCtx.lookup (ctx : LoweringCtx) (name : Identifier) :
    Except UnresolvedSymbolError Definition :=
  let step1 : Except UnresolvedSymbolError Definition :=
    Except.mapError .UnresolvedConstructorError (ctx.lookupConstructor name)
  let step2 : Except UnresolvedVariableError Definition :=
    match step1 with
    | .ok d => .ok d
    | .error _ => ctx.lookupVariable name
  Except.mapError .UnresolvedVariableError step2

/-- Modelled from the spec: the surface/abstract term shapes consumed by
`LoweringCtx::sep_by` — `BinOp(lhs, op, rhs)` and `SrcPos(term, loc)` (§6);
the surface `Term` type itself is not among the provided sources.  Every
other surface form is inert for the scan and is collapsed into `Atom`. -/
inductive CTerm where
  | BinOp (lhs : CTerm) (op : Nat) (rhs : CTerm)
  | SrcPos (inner : CTerm) (loc : Nat)
  | Atom (tag : Nat)
  deriving DecidableEq

/-- The `while let BinOp(box lhs, op, box rhs) = acc` loop of `sep_by`:
while the spine is a `BinOp` with the desired operator, push the left operand
and continue on the right; stop otherwise.  No position stripping happens
inside the loop. -/
def sepByGo (desired : Nat) : CTerm → List CTerm
  | .BinOp lhs op rhs => if desired = op then lhs :: sepByGo desired rhs else []
  | _ => []

/-- `LoweringCtx::sep_by` (the `&mut self` is only used for the debug-build
gas guard, compiled out in release; the function otherwise always returns
`Ok(terms)`, so the result is the plain list): strips one outer `SrcPos`
wrapper, then scans the spine. -/
def sepBy (desired : Nat) (acc : CTerm) : List CTerm :=
  match acc with
  | .SrcPos t _ => sepByGo desired t
  | t => sepByGo desired t

/-- Right-leaning homogeneous chain
`BinOp a₁ d (BinOp a₂ d (… (BinOp aₙ d tail)))`. -/
def mkChain (d : Nat) (operands : List CTerm) (tail : CTerm) : CTerm :=
  operands.foldr (fun a acc => .BinOp a d acc) tail

/-! ### Spec-side observation predicates -/

/-- Cell `h` occurs (as a `Hole`) somewhere in the type. -/
inductive HoleIn (h : Nat) : Ty → Prop
  | here : HoleIn h (.Hole h)
  | pair {x : Ty} {es : List Ty} : x ∈ es → HoleIn h x → HoleIn h (.Pair es)
  | tuple {x : Ty} {es : List Ty} : x ∈ es → HoleIn h x → HoleIn h (.Tuple es)
  | funDom {d c : Ty} : HoleIn h d → HoleIn h (.Fun d c)
  | funCod {d c : Ty} : HoleIn h c → HoleIn h (.Fun d c)
  | app {n : Reference} {a : Ty} : HoleIn h a → HoleIn h (.App n a)
  | loc {t : Ty} : HoleIn h t → HoleIn h (.Local t)

/-- Index `i` occurs (as a `Meta`) somewhere in the type. -/
inductive MetaIn (i : Nat) : Ty → Prop
  | here : MetaIn i (.Meta i)
  | pair {x : Ty} {es : List Ty} : x ∈ es → MetaIn i x → MetaIn i (.Pair es)
  | tuple {x : Ty} {es : List Ty} : x ∈ es → MetaIn i x → MetaIn i (.Tuple es)
  | funDom {d c : Ty} : MetaIn i d → MetaIn i (.Fun d c)
  | funCod {d c : Ty} : MetaIn i c → MetaIn i (.Fun d c)
  | app {n : Reference} {a : Ty} : MetaIn i a → MetaIn i (.App n a)
  | loc {t : Ty} : MetaIn i t → MetaIn i (.Local t)

/-- `SubstAll u t t2`: `t2` is `t` with every `Hole` (whatever its cell)
replaced by `u` and everything else copied; only defined on `Meta`-free `t`. -/
inductive SubstAll (u : Ty) : Ty → Ty → Prop
  | any : SubstAll u .Any .Any
  | pair {es es2 : List Ty} : List.Forall₂ (SubstAll u) es es2 →
      SubstAll u (.Pair es) (.Pair es2)
  | tuple {es es2 : List Ty} : List.Forall₂ (SubstAll u) es es2 →
      SubstAll u (.Tuple es) (.Tuple es2)
  | fn {d c d2 c2 : Ty} : SubstAll u d d2 → SubstAll u c c2 →
      SubstAll u (.Fun d c) (.Fun d2 c2)
  | app {n : Reference} {a a2 : Ty} : SubstAll u a a2 →
      SubstAll u (.App n a) (.App n a2)
  | loc {t t2 : Ty} : SubstAll u t t2 → SubstAll u (.Local t) (.Local t2)
  | ctor {c : Reference} : SubstAll u (.Constructor c) (.Constructor c)
  | hole {v : Nat} : SubstAll u (.Hole v) u

example : unify 1 [] (.Constructor 0) (.Constructor 1)
    = some ([], some (.IncompatibleConstructors 0 1)) := rfl

example : unifyNoCtorArm 1 [] (.Constructor 0) (.Constructor 1)
    = some ([], some (.IncompatibleTypes (.Constructor 0) (.Constructor 1))) := rfl

example : unify 2 [] (.Hole 0) .Any = some ([], none) := rfl

example : unify 2 [] (.Hole 0) (.Constructor 3)
    = some ([(0, .Constructor 3)], none) := rfl

example : unify 3 [(0, .Constructor 3)] (.Hole 0) (.Constructor 4)
    = some ([(0, .Constructor 3)], some (.IncompatibleConstructors 3 4)) := rfl

example : unify 3 [] (.Pair [.Constructor 0]) (.Pair [.Constructor 0, .Constructor 7])
    = some ([], none) := rfl

example : Ty.generalize 1 [] (.Pair [.Hole 0, .Hole 1])
    = some { args := 1, mono := .Pair [.Meta 0, .Meta 0] } := rfl

example : Ty.generalize 1 [(1, .Constructor 5)] (.Pair [.Hole 0, .Hole 1])
    = some { args := 2, mono := .Pair [.Meta 0, .Meta 1] } := rfl

example : Scheme.instantiate { args := 0, mono := .Meta 0 } 0 = none := rfl

example : Scheme.instantiate { args := 2, mono := .Fun (.Meta 0) (.Meta 1) } 7
    = some (.Fun (.Hole 7) (.Hole 8), 9) := rfl

example : sepBy 0 (.BinOp (.Atom 10) 0 (.BinOp (.Atom 11) 0 (.Atom 12)))
    = [.Atom 10, .Atom 11] := rfl

example : LoweringCtx.lookup { varScope := [], ctorScope := [], typeScope := [] } 0
    = .error (.UnresolvedVariableError {}) := rfl

example : LoweringCtx.lookup { varScope := [(0, 7)], ctorScope := [(0, 9)], typeScope := [] } 0
    = .ok 9 := rfl

example : varEq 1 [] 0 1 = some true := rfl

/-! ### Helper lemmas -/

theorem unifyList_no_occurs {u : Store → Ty → Ty → Option UResult}
    (hu : ∀ σ a b σ1 e, u σ a b = some (σ1, some e) → e ≠ UnificationError.OccursCheck) :
    ∀ ps σ σ1 e, unifyList u σ ps = some (σ1, some e) → e ≠ UnificationError.OccursCheck := by
  intro ps
  induction ps with
  | nil => intro σ σ1 e h; simp [unifyList] at h
  | cons p rest ih =>
    intro σ σ1 e h
    obtain ⟨a, b⟩ := p
    simp only [unifyList] at h
    cases hu1 : u σ a b with
    | none => rw [hu1] at h; simp at h
    | some r =>
      obtain ⟨σ2, r2⟩ := r
      cases r2 with
      | none => rw [hu1] at h; exact ih σ2 σ1 e h
      | some e2 =>
        rw [hu1] at h
        simp at h
        obtain ⟨h1, h2⟩ := h
        exact h2 ▸ hu σ a b σ2 e2 hu1

theorem unify_no_occurs : ∀ fuel σ a b σ1 e,
    unify fuel σ a b = some (σ1, some e) → e ≠ UnificationError.OccursCheck := by
  intro fuel
  induction fuel with
  | zero => intro σ a b σ1 e h; simp [unify] at h
  | succ n ih =>
    intro σ a b σ1 e h
    simp only [unify] at h
    split at h <;>
      first
      | (simp at h; done)
      | exact ih _ _ _ _ _ h
      | exact unifyList_no_occurs ih _ _ _ _ h
      | (simp at h; obtain ⟨h1, h2⟩ := h; rw [← h2]; exact ih _ _ _ _ _ (by assumption))
      | (split at h <;>
          first
          | (simp at h; done)
          | exact ih _ _ _ _ _ h
          | (simp at h; obtain ⟨h1, h2⟩ := h; first | (simp [← h2]; done) | (simp [h2]; done))
          | (simp at h; obtain ⟨h1, h2⟩ := h; subst h2; exact ih _ _ _ _ _ (by assumption)))
      | (simp at h; obtain ⟨h1, h2⟩ := h; first | (simp [← h2]; done) | (simp [h2]; done))
      | (simp at h; obtain ⟨h1, h2⟩ := h; subst h2; exact ih _ _ _ _ _ (by assumption))

/-! ### C2 — unify never returns OccursCheck; unbound-hole behaviour -/

/-- C2 counterexample: the claim says an unbound hole is always bound
directly to the other operand, but against `Any` the first two match arms win
and unification succeeds *without* binding: the store comes back unchanged
and the cell is still unbound. -/
theorem unify_hole_any_cex :
    unify 1 [] (.Hole 0) .Any = some ([], none) ∧ ([] : Store).lookup 0 = none :=
  ⟨rfl, rfl⟩

/-- C2 (amended): `unify` never returns `OccursCheck`; if either operand is
an unbound hole and the other operand is not `Any` (for a right-hand hole,
also not itself a hole, since the left hole arm takes precedence), the hole
is bound directly to the other operand and unification succeeds — no occurs
check, even when the other operand contains that very hole. -/
theorem unify_no_occurs_and_unbound_hole_binds :
    (∀ fuel σ a b σ1 e, unify fuel σ a b = some (σ1, some e) →
      e ≠ UnificationError.OccursCheck) ∧
    (∀ fuel σ h b, σ.lookup h = none → b ≠ Ty.Any →
      unify (fuel + 1) σ (.Hole h) b = some ((h, b) :: σ, none)) ∧
    (∀ fuel σ h a, σ.lookup h = none → a ≠ Ty.Any → (∀ v, a ≠ Ty.Hole v) →
      unify (fuel + 1) σ a (.Hole h) = some ((h, a) :: σ, none)) := by
  refine ⟨unify_no_occurs, ?_, ?_⟩
  · intro fuel σ h b hσ hb
    cases b <;> first
      | exact absurd rfl hb
      | (simp only [unify]; rw [hσ])
  · intro fuel σ h a hσ ha hh
    cases a <;> first
      | exact absurd rfl ha
      | exact absurd rfl (hh _)
      | (simp only [unify]; rw [hσ])

/-- Witness for C2: binds hole 0 to a type containing hole 0 itself
(`0 list`), succeeding with no occurs check. -/
theorem unify_no_occurs_and_unbound_hole_binds_witness :
    unify 3 [] (.Hole 0) (.App 1 (.Hole 0)) = some ([(0, .App 1 (.Hole 0))], none) :=
  unify_no_occurs_and_unbound_hole_binds.2.1 2 [] 0 (.App 1 (.Hole 0)) rfl (by simp)

/-! ### C5 — Pair/Tuple unification zips to the shorter side -/

/-- C5: for `Pair`s (and `Tuple`s) of different lengths, `unify` compares
exactly the zipped prefix — the length of the shorter side — and succeeds
whenever that element-wise pass succeeds; the longer side's extra elements
are ignored and no arity error exists. -/
theorem unify_pair_tuple_zip_shortest (fuel : Nat) (σ σ1 : Store) (l r : List Ty)
    (hlen : l.length ≠ r.length)
    (h : unifyList (unify fuel) σ (l.zip r) = some (σ1, none)) :
    unify (fuel + 1) σ (.Pair l) (.Pair r) = some (σ1, none) ∧
    unify (fuel + 1) σ (.Tuple l) (.Tuple r) = some (σ1, none) :=
  ⟨h, h⟩

/-- Witness for C5: `(C0) : Pair` against `(C0, C7) : Pair` — lengths 1 ≠ 2,
element-wise pass on the single zipped pair succeeds, so unify succeeds. -/
theorem unify_pair_tuple_zip_shortest_witness :
    unify 2 [] (.Pair [.Constructor 0]) (.Pair [.Constructor 0, .Constructor 7])
      = some ([], none) :=
  (unify_pair_tuple_zip_shortest 1 [] [] [.Constructor 0]
    [.Constructor 0, .Constructor 7] (by simp) rfl).1

/-! ### C9 — the late unequal-Constructor arm is live, not dead code -/

/-- C9 counterexample: removing the late `(Constructor, Constructor)` arm
changes `unify`'s observable result — on `C0 ~ C1` the real `unify` reports
`IncompatibleConstructors` through that arm, while the variant without it
falls to the catch-all and reports `IncompatibleTypes`. -/
theorem unify_ctor_arm_cex :
    unify 1 [] (.Constructor 0) (.Constructor 1)
      ≠ unifyNoCtorArm 1 [] (.Constructor 0) (.Constructor 1) := by
  have h1 : unify 1 [] (.Constructor 0) (.Constructor 1)
      = some ([], some (.IncompatibleConstructors 0 1)) := rfl
  have h2 : unifyNoCtorArm 1 [] (.Constructor 0) (.Constructor 1)
      = some ([], some (.IncompatibleTypes (.Constructor 0) (.Constructor 1))) := rfl
  rw [h1, h2]
  simp

/-- C9 (amended): the late unequal-`Constructor` arm is reachable — every
pair of `Constructor` types with unequal references reaches it (the guard of
the early equal-`Constructor` arm fails and no arm in between matches two
constructors), and it produces the observable `IncompatibleConstructors`
error; without the arm the result would be the catch-all's
`IncompatibleTypes`. -/
theorem unify_ctor_arm_reachable (fuel : Nat) (σ : Store) (l r : Reference)
    (h : l ≠ r) :
    unify (fuel + 1) σ (.Constructor l) (.Constructor r)
      = some (σ, some (.IncompatibleConstructors l r)) ∧
    unifyNoCtorArm (fuel + 1) σ (.Constructor l) (.Constructor r)
      = some (σ, some (.IncompatibleTypes (.Constructor l) (.Constructor r))) := by
  constructor <;> simp [unify, unifyNoCtorArm, h]

/-- Witness for C9 at constructors 0 ≠ 1. -/
theorem unify_ctor_arm_reachable_witness :
    unify 1 [] (.Constructor 0) (.Constructor 1)
      = some ([], some (.IncompatibleConstructors 0 1)) :=
  (unify_ctor_arm_reachable 0 [] 0 1 (by simp)).1

/-! ### C4 — a bound hole is never rebound; incompatible re-unification -/

theorem lookup_cons_of_ne {σ : Store} {x h : Nat} {v : Ty} (hne : x ≠ h) :
    List.lookup x ((h, v) :: σ) = List.lookup x σ := by
  have hb : (x == h) = false := beq_eq_false_iff_ne.mpr hne
  simp [List.lookup, hb]

theorem lookup_cons_of_bound {σ : Store} {x h : Nat} {v t : Ty}
    (hx : σ.lookup x = some t) (hh : σ.lookup h = none) :
    List.lookup x ((h, v) :: σ) = some t := by
  have hne : x ≠ h := fun hEq => by rw [hEq, hh] at hx; cases hx
  rw [lookup_cons_of_ne hne]
  exact hx

theorem unifyList_preserves {u : Store → Ty → Ty → Option UResult}
    (hu : ∀ σ a b σ1 res, u σ a b = some (σ1, res) →
      ∀ x t, σ.lookup x = some t → σ1.lookup x = some t) :
    ∀ ps σ σ1 res, unifyList u σ ps = some (σ1, res) →
      ∀ x t, σ.lookup x = some t → σ1.lookup x = some t := by
  intro ps
  induction ps with
  | nil =>
    intro σ σ1 res h x t hx
    simp only [unifyList] at h
    simp at h
    exact h.1 ▸ hx
  | cons p rest ih =>
    intro σ σ1 res h x t hx
    obtain ⟨a, b⟩ := p
    simp only [unifyList] at h
    cases hu1 : u σ a b with
    | none => rw [hu1] at h; simp at h
    | some r =>
      obtain ⟨σ2, r2⟩ := r
      cases r2 with
      | none =>
        rw [hu1] at h
        exact ih σ2 σ1 res h x t (hu σ a b σ2 none hu1 x t hx)
      | some e2 =>
        rw [hu1] at h
        simp at h
        exact h.1 ▸ hu σ a b σ2 (some e2) hu1 x t hx

theorem unify_preserves_bindings : ∀ fuel σ a b σ1 res,
    unify fuel σ a b = some (σ1, res) →
    ∀ x t, σ.lookup x = some t → σ1.lookup x = some t := by
  intro fuel
  induction fuel with
  | zero => intro σ a b σ1 res h; simp [unify] at h
  | succ n ih =>
    intro σ a b σ1 res h x t hx
    simp only [unify] at h
    split at h <;>
      first
      | (simp at h; done)
      | (simp at h; exact h.1 ▸ hx)
      | exact ih _ _ _ _ _ h _ _ hx
      | exact unifyList_preserves ih _ _ _ _ h _ _ hx
      | (split at h <;>
          first
          | (simp at h; done)
          | (simp at h; exact h.1 ▸ hx)
          | exact ih _ _ _ _ _ h _ _ hx
          | (rename_i σ2 e2 heq; simp at h
             exact h.1 ▸ ih _ _ _ _ _ heq _ _ hx)
          | (rename_i heq; simp at h
             exact h.1 ▸ lookup_cons_of_bound hx heq)
          | (rename_i σ2 heq
             exact ih _ _ _ _ _ h _ _ (ih _ _ _ _ _ heq _ _ hx)))

/-- C4: once a hole is bound to `t1` (`lookup h = some t1`), unifying
`Hole h` against a `t2` that is incompatible with `t1` (their unification
reports `IncompatibleTypes`) fails with that same `IncompatibleTypes` error,
and afterwards `h` is still bound to `t1`: the bound-hole arm only recurses
on the contents and `update` is never called on a bound cell. -/
theorem unify_rebind_incompatible_fails (fuel : Nat) (σ σ1 : Store) (h : Nat)
    (t1 t2 a b : Ty)
    (hbound : σ.lookup h = some t1)
    (hfail : unify fuel σ t1 t2 = some (σ1, some (.IncompatibleTypes a b))) :
    unify (fuel + 1) σ (.Hole h) t2 = some (σ1, some (.IncompatibleTypes a b)) ∧
    σ1.lookup h = some t1 := by
  constructor
  · have ht2 : t2 ≠ Ty.Any := by
      intro hEq
      subst hEq
      cases fuel with
      | zero => simp [unify] at hfail
      | succ n => cases t1 <;> simp [unify] at hfail
    cases t2 <;>
      first
      | exact absurd rfl ht2
      | (simp only [unify]; rw [hbound]; exact hfail)
  · exact unify_preserves_bindings fuel σ t1 t2 σ1 _ hfail h t1 hbound

/-- Witness for C4: hole 0 bound to `C3`, re-unified against `Any → Any`. -/
theorem unify_rebind_incompatible_fails_witness :
    unify 2 [(0, .Constructor 3)] (.Hole 0) (.Fun .Any .Any)
      = some ([(0, .Constructor 3)],
          some (.IncompatibleTypes (.Constructor 3) (.Fun .Any .Any))) ∧
    List.lookup 0 [((0 : Nat), Ty.Constructor 3)] = some (.Constructor 3) :=
  unify_rebind_incompatible_fails 1 [(0, .Constructor 3)] [(0, .Constructor 3)]
    0 (.Constructor 3) (.Fun .Any .Any) (.Constructor 3) (.Fun .Any .Any) rfl rfl

/-! ### C3 — Variable equality is by current value -/

/-- C3 counterexample: cells 0 and 1 are distinct and both unbound in the
empty store, yet the value-based `Variable` equality deems them **equal**
(`None == None`), contradicting "two distinct unbound cells compare
unequal". -/
theorem variable_eq_unbound_cex :
    (0 : Nat) ≠ 1 ∧ varEq 1 [] 0 1 = some true := ⟨by simp, rfl⟩

/-- C3 (amended): `Variable` equality compares the cells' *current values*:
two unbound cells — distinct or not — compare equal; a bound and an unbound
cell compare unequal; two bound cells compare as their contents do; and
equality of `Type::Hole` values is exactly this cell equality. -/
theorem variable_eq_by_value (fuel : Nat) (σ : Store) (i j : Nat) :
    (σ.lookup i = none → σ.lookup j = none → varEq fuel σ i j = some true) ∧
    (∀ x, σ.lookup i = some x → σ.lookup j = none → varEq fuel σ i j = some false) ∧
    (∀ y, σ.lookup i = none → σ.lookup j = some y → varEq fuel σ i j = some false) ∧
    (∀ x y, σ.lookup i = some x → σ.lookup j = some y →
      varEq fuel σ i j = tyEq fuel σ x y) ∧
    tyEq (fuel + 1) σ (.Hole i) (.Hole j) = varEq fuel σ i j := by
  refine ⟨fun h1 h2 => ?_, fun x h1 h2 => ?_, fun y h1 h2 => ?_,
    fun x y h1 h2 => ?_, rfl⟩ <;> simp [varEq, h1, h2]

/-- Witness for C3's amended statement: a bound and an unbound cell compare
unequal. -/
theorem variable_eq_by_value_witness :
    varEq 1 [(0, .Constructor 2)] 0 1 = some false :=
  (variable_eq_by_value 1 [(0, .Constructor 2)] 0 1).2.1 (.Constructor 2) rfl rfl

/-! ### C7 — general lookup: constructor scope first, tagged error -/

/-- C7 counterexample: with both scopes empty, the constructor lookup fails
(second conjunct), yet `lookup` reports only
`UnresolvedSymbolError::UnresolvedVariableError` — the final `map_err` tags
every both-fail result as a variable failure, so which lookup failed is not
preserved and an unresolved constructor is not distinguishable. -/
theorem ctx_lookup_cex :
    LoweringCtx.lookup { varScope := [], ctorScope := [], typeScope := [] } 0
      = .error (.UnresolvedVariableError {}) ∧
    LoweringCtx.lookupConstructor { varScope := [], ctorScope := [], typeScope := [] } 0
      = .error {} :=
  ⟨rfl, rfl⟩

/-- C7 (amended): `lookup` returns the constructor-scope `Definition` when
the name resolves there, else falls back to the variable scope; when both
lookups fail the error is always the `UnresolvedVariableError` variant — the
constructor-lookup failure is not preserved in the result. -/
theorem ctx_lookup_ctor_first_var_tag (ctx : LoweringCtx) (name : Identifier) :
    (∀ d, ctx.lookupConstructor name = .ok d → ctx.lookup name = .ok d) ∧
    (∀ d, ctx.lookupConstructor name = .error {} →
      ctx.lookupVariable name = .ok d → ctx.lookup name = .ok d) ∧
    (ctx.lookupConstructor name = .error {} →
      ctx.lookupVariable name = .error {} →
      ctx.lookup name = .error (.UnresolvedVariableError {})) := by
  refine ⟨?_, ?_, ?_⟩ <;>
    (intros; simp_all [LoweringCtx.lookup, Except.mapError])

/-- Witness for C7's amended statement: constructor scope wins over the
variable scope for name 0. -/
theorem ctx_lookup_ctor_first_var_tag_witness :
    LoweringCtx.lookup { varScope := [(0, 7)], ctorScope := [(0, 9)], typeScope := [] } 0
      = .ok 9 :=
  (ctx_lookup_ctor_first_var_tag
    { varScope := [(0, 7)], ctorScope := [(0, 9)], typeScope := [] } 0).1 9 rfl

/-! ### C10 — sep_by flattens the left operands of a homogeneous chain -/

/-- C10 counterexample: for the two-operand chain `Atom 10 ⊕₀ Atom 11` the
scan returns only `[Atom 10]` — the trailing operand `Atom 11` (the node at
which the loop stops) is dropped, so `sep_by` does not return the chain's
full ordered operand sequence `[Atom 10, Atom 11]`. -/
theorem sepBy_cex :
    sepBy 0 (.BinOp (.Atom 10) 0 (.Atom 11)) = [.Atom 10] ∧
    ([CTerm.Atom 10] : List CTerm) ≠ [.Atom 10, .Atom 11] :=
  ⟨rfl, by simp⟩

/-- C10 (amended): for a right-leaning chain whose spine uses the desired
operator `d` and whose tail is not a further `d`-node (first mismatching
operator or non-binary node), `sep_by` — on the bare chain or on the chain
under a single `SrcPos` wrapper, stripped once — returns the ordered
sequence of the spine's *left* operands; the trailing operand (`tail`) is
not included. -/
theorem sepBy_left_operands (d : Nat) (ops : List CTerm) (tail : CTerm) (loc : Nat)
    (htail : ∀ l r, tail ≠ .BinOp l d r) :
    sepByGo d (mkChain d ops tail) = ops ∧
    sepBy d (.SrcPos (mkChain d ops tail) loc) = ops ∧
    (∀ a rest, ops = a :: rest → sepBy d (mkChain d ops tail) = ops) := by
  have hgo : sepByGo d (mkChain d ops tail) = ops := by
    induction ops with
    | nil =>
      simp only [mkChain, List.foldr]
      cases tail with
      | BinOp l op r =>
        simp only [sepByGo]
        rw [if_neg]
        intro hEq
        subst hEq
        exact htail l r rfl
      | SrcPos t l => rfl
      | Atom t => rfl
    | cons a rest ih =>
      show sepByGo d (.BinOp a d (mkChain d rest tail)) = a :: rest
      simp [sepByGo, ih]
  refine ⟨hgo, hgo, ?_⟩
  intro a rest hops
  subst hops
  exact hgo

/-- Witness for C10: `Atom 1 ⊕₀ (Atom 2 ⊕₀ Atom 3)` under a `SrcPos` wrapper
flattens to the left operands `[Atom 1, Atom 2]`. -/
theorem sepBy_left_operands_witness :
    sepBy 0 (.SrcPos (mkChain 0 [.Atom 1, .Atom 2] (.Atom 3)) 5) = [.Atom 1, .Atom 2] :=
  (sepBy_left_operands 0 [.Atom 1, .Atom 2] (.Atom 3) 5 (fun l r => by simp)).2.1

/-! ### Nested induction principle for `Ty` -/

theorem Ty.nestedInduction {P : Ty → Prop}
    (hAny : P .Any)
    (hPair : ∀ es, (∀ x ∈ es, P x) → P (.Pair es))
    (hTuple : ∀ es, (∀ x ∈ es, P x) → P (.Tuple es))
    (hFun : ∀ d c, P d → P c → P (.Fun d c))
    (hApp : ∀ n a, P a → P (.App n a))
    (hLocal : ∀ t, P t → P (.Local t))
    (hCtor : ∀ c, P (.Constructor c))
    (hMeta : ∀ i, P (.Meta i))
    (hHole : ∀ v, P (.Hole v)) : ∀ t, P t :=
  @Ty.rec P (fun l => ∀ x ∈ l, P x)
    hAny hPair hTuple hFun hApp hLocal hCtor hMeta hHole
    (by simp)
    (fun hd tl phd ptl => by
      intro x hx
      rcases List.mem_cons.mp hx with rfl | hx2
      · exact phd
      · exact ptl x hx2)

/-! ### C8 — instantiate: the expect-panic and totality on well-formed schemes -/

theorem instantiateGoList_total (args fresh : Nat) :
    ∀ es : List Ty, (∀ x ∈ es, ∃ t2, instantiateGo args fresh x = some t2) →
      ∃ ts, instantiateGoList args fresh es = some ts := by
  intro es
  induction es with
  | nil => exact fun _ => ⟨[], rfl⟩
  | cons a rest ih =>
    intro hall
    obtain ⟨t2, ht⟩ := hall a (by simp)
    obtain ⟨ts, hts⟩ := ih fun x hx => hall x (by simp [hx])
    exact ⟨t2 :: ts, by simp [instantiateGoList, ht, hts]⟩

theorem instantiateGo_total (args fresh : Nat) :
    ∀ t : Ty, (∀ i, MetaIn i t → i < args) →
      ∃ t2, instantiateGo args fresh t = some t2 := by
  intro t
  induction t using Ty.nestedInduction with
  | hAny => exact fun _ => ⟨.Any, rfl⟩
  | hPair es ih =>
    intro hm
    obtain ⟨ts, hts⟩ := instantiateGoList_total args fresh es
      (fun x hx => ih x hx (fun i hi => hm i (.pair hx hi)))
    exact ⟨.Pair ts, by simp [instantiateGo, hts]⟩
  | hTuple es ih =>
    intro hm
    obtain ⟨ts, hts⟩ := instantiateGoList_total args fresh es
      (fun x hx => ih x hx (fun i hi => hm i (.tuple hx hi)))
    exact ⟨.Tuple ts, by simp [instantiateGo, hts]⟩
  | hFun d c ihd ihc =>
    intro hm
    obtain ⟨d2, hd⟩ := ihd fun i hi => hm i (.funDom hi)
    obtain ⟨c2, hc⟩ := ihc fun i hi => hm i (.funCod hi)
    exact ⟨.Fun d2 c2, by simp [instantiateGo, hd, hc]⟩
  | hApp n a iha =>
    intro hm
    obtain ⟨a2, ha⟩ := iha fun i hi => hm i (.app hi)
    exact ⟨.App n a2, by simp [instantiateGo, ha]⟩
  | hLocal t iht =>
    intro hm
    obtain ⟨t2, ht⟩ := iht fun i hi => hm i (.loc hi)
    exact ⟨.Local t2, by simp [instantiateGo, ht]⟩
  | hCtor c => exact fun _ => ⟨.Constructor c, rfl⟩
  | hMeta i =>
    intro hm
    exact ⟨.Hole (fresh + i), by simp [instantiateGo, hm i .here]⟩
  | hHole v => exact fun _ => ⟨.Hole v, rfl⟩

/-- C8 counterexample: the malformed scheme `Scheme { args: 0, mono: Meta 0 }`
drives `Scheme::instantiate` into `.expect("can't index holes")` — modelled
as `none` — so `instantiate` can abort the process, in optimized builds too
(`expect` is not debug-gated), contradicting "never panics for any Scheme". -/
theorem instantiate_panic_cex :
    Scheme.instantiate { args := 0, mono := .Meta 0 } 0 = none := rfl

/-- C8 (amended): for every `Scheme` satisfying the documented invariant —
each `Meta` index of `mono` below `args` — `instantiate` returns a value (no
panic); the `expect` panic is reachable exactly from malformed schemes. -/
theorem instantiate_total_of_wf (s : Scheme) (fresh : Nat)
    (hwf : ∀ i, MetaIn i s.mono → i < s.args) :
    ∃ t, s.instantiate fresh = some (t, fresh + s.args) := by
  obtain ⟨t, ht⟩ := instantiateGo_total s.args fresh s.mono hwf
  exact ⟨t, by simp [Scheme.instantiate, ht]⟩

/-- Witness for C8: the identity-function scheme `∀1. Meta 0 → Meta 0`. -/
theorem instantiate_total_of_wf_witness :
    ∃ t, Scheme.instantiate { args := 1, mono := .Fun (.Meta 0) (.Meta 0) } 4
      = some (t, 4 + 1) :=
  instantiate_total_of_wf { args := 1, mono := .Fun (.Meta 0) (.Meta 0) } 4
    (fun i hi => by cases hi with
      | funDom h => cases h; simp
      | funCod h => cases h; simp)

/-! ### C6 — instantiation freshness -/

theorem instantiateGoList_mem (args fresh : Nat) :
    ∀ (es ts : List Ty), instantiateGoList args fresh es = some ts →
      ∀ y ∈ ts, ∃ x ∈ es, instantiateGo args fresh x = some y := by
  intro es
  induction es with
  | nil =>
    intro ts h y hy
    simp only [instantiateGoList] at h
    simp at h
    subst h
    cases hy
  | cons a rest ih =>
    intro ts h y hy
    simp only [instantiateGoList] at h
    cases ha : instantiateGo args fresh a with
    | none => rw [ha] at h; simp at h
    | some t2 =>
      cases hrest : instantiateGoList args fresh rest with
      | none => rw [ha, hrest] at h; simp at h
      | some ts2 =>
        rw [ha, hrest] at h
        simp at h
        subst h
        rcases List.mem_cons.mp hy with rfl | hy2
        · exact ⟨a, by simp, ha⟩
        · obtain ⟨x, hx, hinst⟩ := ih ts2 hrest y hy2
          exact ⟨x, by simp [hx], hinst⟩

theorem instantiateGo_hole_range (args fresh : Nat) :
    ∀ m : Ty, (∀ v, ¬ HoleIn v m) →
      ∀ t, instantiateGo args fresh m = some t →
      ∀ v, HoleIn v t → fresh ≤ v ∧ v < fresh + args := by
  intro m
  induction m using Ty.nestedInduction with
  | hAny =>
    intro _ t h v hv
    simp only [instantiateGo] at h
    simp at h
    subst h
    cases hv
  | hPair es ih =>
    intro hnf t h v hv
    simp only [instantiateGo] at h
    cases hl : instantiateGoList args fresh es with
    | none => rw [hl] at h; simp at h
    | some ts =>
      rw [hl] at h
      simp at h
      subst h
      cases hv with
      | pair hy hvy =>
        obtain ⟨x, hx, hinst⟩ := instantiateGoList_mem args fresh es ts hl _ hy
        exact ih x hx (fun w hw => hnf w (.pair hx hw)) _ hinst v hvy
  | hTuple es ih =>
    intro hnf t h v hv
    simp only [instantiateGo] at h
    cases hl : instantiateGoList args fresh es with
    | none => rw [hl] at h; simp at h
    | some ts =>
      rw [hl] at h
      simp at h
      subst h
      cases hv with
      | tuple hy hvy =>
        obtain ⟨x, hx, hinst⟩ := instantiateGoList_mem args fresh es ts hl _ hy
        exact ih x hx (fun w hw => hnf w (.tuple hx hw)) _ hinst v hvy
  | hFun d c ihd ihc =>
    intro hnf t h v hv
    simp only [instantiateGo] at h
    cases hd : instantiateGo args fresh d with
    | none => rw [hd] at h; simp at h
    | some d2 =>
      cases hc : instantiateGo args fresh c with
      | none => rw [hd, hc] at h; simp at h
      | some c2 =>
        rw [hd, hc] at h
        simp at h
        subst h
        cases hv with
        | funDom hvd => exact ihd (fun w hw => hnf w (.funDom hw)) _ hd v hvd
        | funCod hvc => exact ihc (fun w hw => hnf w (.funCod hw)) _ hc v hvc
  | hApp n a iha =>
    intro hnf t h v hv
    simp only [instantiateGo] at h
    cases ha : instantiateGo args fresh a with
    | none => rw [ha] at h; simp at h
    | some a2 =>
      rw [ha] at h
      simp at h
      subst h
      cases hv with
      | app hva => exact iha (fun w hw => hnf w (.app hw)) _ ha v hva
  | hLocal t0 iht =>
    intro hnf t h v hv
    simp only [instantiateGo] at h
    cases ht0 : instantiateGo args fresh t0 with
    | none => rw [ht0] at h; simp at h
    | some t2 =>
      rw [ht0] at h
      simp at h
      subst h
      cases hv with
      | loc hvt => exact iht (fun w hw => hnf w (.loc hw)) _ ht0 v hvt
  | hCtor c =>
    intro _ t h v hv
    simp only [instantiateGo] at h
    simp at h
    subst h
    cases hv
  | hMeta i =>
    intro _ t h v hv
    simp only [instantiateGo] at h
    split at h
    · simp at h
      subst h
      cases hv
      constructor
      · exact Nat.le_add_right fresh i
      · omega
    · simp at h
  | hHole v0 =>
    intro hnf
    exact absurd HoleIn.here (hnf v0)

/-- C6: instantiating a well-formed scheme (only `Meta` indices below `args`,
no `Hole` in `mono`) twice in sequence yields types whose hole cells are
pairwise distinct and fresh; consequently binding any hole of the first
result (prepending `(v, u)` to the store) leaves the store lookups of every
hole of the second result unchanged. -/
theorem instantiate_twice_disjoint (s : Scheme) (n1 n2 n3 : Nat) (t1 t2 : Ty)
    (hwf : ∀ i, MetaIn i s.mono → i < s.args)
    (hnohole : ∀ v, ¬ HoleIn v s.mono)
    (h1 : s.instantiate n1 = some (t1, n2))
    (h2 : s.instantiate n2 = some (t2, n3)) :
    (∀ v, HoleIn v t1 → ¬ HoleIn v t2) ∧
    (∀ v u, HoleIn v t1 → ∀ w, HoleIn w t2 → ∀ σ : Store,
      List.lookup w ((v, u) :: σ) = List.lookup w σ) := by
  have hg1 : instantiateGo s.args n1 s.mono = some t1 ∧ n2 = n1 + s.args := by
    unfold Scheme.instantiate at h1
    cases hgo : instantiateGo s.args n1 s.mono with
    | none => rw [hgo] at h1; simp at h1
    | some t => rw [hgo] at h1; simp at h1; exact ⟨h1.1 ▸ rfl, h1.2.symm⟩
  have hg2 : instantiateGo s.args n2 s.mono = some t2 := by
    unfold Scheme.instantiate at h2
    cases hgo : instantiateGo s.args n2 s.mono with
    | none => rw [hgo] at h2; simp at h2
    | some t => rw [hgo] at h2; simp at h2; exact h2.1 ▸ rfl
  have hr1 := instantiateGo_hole_range s.args n1 s.mono hnohole t1 hg1.1
  have hr2 := instantiateGo_hole_range s.args n2 s.mono hnohole t2 hg2
  have hdisj : ∀ v, HoleIn v t1 → ¬ HoleIn v t2 := by
    intro v hv1 hv2
    have b1 := hr1 v hv1
    have b2 := hr2 v hv2
    omega
  refine ⟨hdisj, ?_⟩
  intro v u hv1 w hv2 σ
  have hne : w ≠ v := by
    intro hEq
    exact hdisj v hv1 (hEq ▸ hv2)
  exact lookup_cons_of_ne hne

/-- Witness for C6: `∀1. Meta 0` instantiated at fresh bases 0 and 1 gives
`Hole 0` and `Hole 1`; cell 0 occurs in the first but not the second. -/
theorem instantiate_twice_disjoint_witness :
    HoleIn 0 (.Hole 0) ∧ ¬ HoleIn 0 (.Hole 1) :=
  ⟨HoleIn.here,
    (instantiate_twice_disjoint { args := 1, mono := .Meta 0 } 0 1 2 (.Hole 0) (.Hole 1)
      (fun i hi => by cases hi; simp)
      (fun v hv => by cases hv)
      rfl rfl).1 0 HoleIn.here⟩

/-! ### C1 — generalize/instantiate round trip under value-keyed collapse -/

theorem instantiateGoList_of_subst (fresh : Nat) :
    ∀ es es2 : List Ty, List.Forall₂ (SubstAll (.Meta 0)) es es2 →
      (∀ x ∈ es, ∀ m2, SubstAll (.Meta 0) x m2 →
        ∃ y, instantiateGo 1 fresh m2 = some y ∧ SubstAll (.Hole fresh) x y) →
      ∃ ts2, instantiateGoList 1 fresh es2 = some ts2 ∧
        List.Forall₂ (SubstAll (.Hole fresh)) es ts2 := by
  intro es
  induction es with
  | nil =>
    intro es2 hf _
    cases hf
    exact ⟨[], rfl, List.Forall₂.nil⟩
  | cons a rest ih =>
    intro es2 hf hall
    cases hf with
    | cons ha hrest =>
      obtain ⟨y, hy, hsy⟩ := hall a (by simp) _ ha
      obtain ⟨ts2, hts, hf2⟩ := ih _ hrest fun x hx => hall x (by simp [hx])
      exact ⟨y :: ts2, by simp [instantiateGoList, hy, hts],
        List.Forall₂.cons hsy hf2⟩

theorem instantiateGo_of_subst (fresh : Nat) :
    ∀ t mono : Ty, SubstAll (.Meta 0) t mono →
      ∃ t2, instantiateGo 1 fresh mono = some t2 ∧ SubstAll (.Hole fresh) t t2 := by
  intro t
  induction t using Ty.nestedInduction with
  | hAny =>
    intro mono hs
    cases hs
    exact ⟨.Any, rfl, SubstAll.any⟩
  | hPair es ih =>
    intro mono hs
    cases hs with
    | pair hf =>
      obtain ⟨ts2, hts, hf2⟩ := instantiateGoList_of_subst fresh es _ hf ih
      exact ⟨.Pair ts2, by simp [instantiateGo, hts], SubstAll.pair hf2⟩
  | hTuple es ih =>
    intro mono hs
    cases hs with
    | tuple hf =>
      obtain ⟨ts2, hts, hf2⟩ := instantiateGoList_of_subst fresh es _ hf ih
      exact ⟨.Tuple ts2, by simp [instantiateGo, hts], SubstAll.tuple hf2⟩
  | hFun d c ihd ihc =>
    intro mono hs
    cases hs with
    | fn hd hc =>
      obtain ⟨d2, hd2, hsd⟩ := ihd _ hd
      obtain ⟨c2, hc2, hsc⟩ := ihc _ hc
      exact ⟨.Fun d2 c2, by simp [instantiateGo, hd2, hc2], SubstAll.fn hsd hsc⟩
  | hApp n a iha =>
    intro mono hs
    cases hs with
    | app ha =>
      obtain ⟨a2, ha2, hsa⟩ := iha _ ha
      exact ⟨.App n a2, by simp [instantiateGo, ha2], SubstAll.app hsa⟩
  | hLocal t0 iht =>
    intro mono hs
    cases hs with
    | loc ht =>
      obtain ⟨t2, ht2, hst⟩ := iht _ ht
      exact ⟨.Local t2, by simp [instantiateGo, ht2], SubstAll.loc hst⟩
  | hCtor c =>
    intro mono hs
    cases hs
    exact ⟨.Constructor c, rfl, SubstAll.ctor⟩
  | hMeta i =>
    intro mono hs
    cases hs
  | hHole v =>
    intro mono hs
    cases hs
    exact ⟨.Hole (fresh + 0), by simp [instantiateGo], SubstAll.hole⟩

theorem generalizeGoList_unbound (fuel : Nat) (σ : Store) :
    ∀ es : List Ty,
    (∀ x ∈ es, ∀ vars : List (Ty × Nat),
      (vars = [] ∨ ∃ v0, vars = [(Ty.Hole v0, 0)] ∧ σ.lookup v0 = none) →
      ∃ vars' t', generalizeGo (fuel + 1) σ vars x = some (vars', t') ∧
        SubstAll (.Meta 0) x t' ∧
        (vars' = vars ∨
          (vars = [] ∧ ∃ v0, vars' = [(Ty.Hole v0, 0)] ∧ σ.lookup v0 = none)) ∧
        ((∃ v, HoleIn v x) → vars' ≠ [])) →
    ∀ vars : List (Ty × Nat),
      (vars = [] ∨ ∃ v0, vars = [(Ty.Hole v0, 0)] ∧ σ.lookup v0 = none) →
      ∃ vars' ts', generalizeGoList (fuel + 1) σ vars es = some (vars', ts') ∧
        List.Forall₂ (SubstAll (.Meta 0)) es ts' ∧
        (vars' = vars ∨
          (vars = [] ∧ ∃ v0, vars' = [(Ty.Hole v0, 0)] ∧ σ.lookup v0 = none)) ∧
        ((∃ x ∈ es, ∃ v, HoleIn v x) → vars' ≠ []) := by
  intro es
  induction es with
  | nil =>
    intro _ vars hinv
    refine ⟨vars, [], rfl, List.Forall₂.nil, Or.inl rfl, ?_⟩
    rintro ⟨x, hx, _⟩
    cases hx
  | cons a rest ih =>
    intro hall vars hinv
    obtain ⟨vars1, t1, heq1, hs1, hg1, hne1⟩ := hall a (by simp) vars hinv
    have hinv1 : vars1 = [] ∨ ∃ v0, vars1 = [(Ty.Hole v0, 0)] ∧ σ.lookup v0 = none := by
      rcases hg1 with rfl | ⟨-, h⟩
      · exact hinv
      · exact Or.inr h
    obtain ⟨vars2, ts2, heq2, hs2, hg2, hne2⟩ :=
      ih (fun x hx => hall x (by simp [hx])) vars1 hinv1
    refine ⟨vars2, t1 :: ts2, ?_, List.Forall₂.cons hs1 hs2, ?_, ?_⟩
    · simp [generalizeGoList, heq1, heq2]
    · rcases hg1 with rfl | ⟨rfl, v0, hv0, hl0⟩
      · exact hg2
      · rcases hg2 with rfl | ⟨hnil, -⟩
        · exact Or.inr ⟨rfl, v0, hv0, hl0⟩
        · rw [hv0] at hnil; cases hnil
    · rintro ⟨x, hx, v, hv⟩
      rcases List.mem_cons.mp hx with rfl | hx2
      · have h1 : vars1 ≠ [] := hne1 ⟨v, hv⟩
        rcases hg2 with rfl | ⟨hnil, -⟩
        · exact h1
        · exact absurd hnil h1
      · exact hne2 ⟨x, hx2, v, hv⟩

theorem generalizeGo_unbound (fuel : Nat) (σ : Store) :
    ∀ t : Ty, (∀ v, HoleIn v t → σ.lookup v = none) → (∀ i, ¬ MetaIn i t) →
    ∀ vars : List (Ty × Nat),
      (vars = [] ∨ ∃ v0, vars = [(Ty.Hole v0, 0)] ∧ σ.lookup v0 = none) →
      ∃ vars' t', generalizeGo (fuel + 1) σ vars t = some (vars', t') ∧
        SubstAll (.Meta 0) t t' ∧
        (vars' = vars ∨
          (vars = [] ∧ ∃ v0, vars' = [(Ty.Hole v0, 0)] ∧ σ.lookup v0 = none)) ∧
        ((∃ v, HoleIn v t) → vars' ≠ []) := by
  intro t
  induction t using Ty.nestedInduction with
  | hAny =>
    intro _ _ vars hinv
    refine ⟨vars, .Any, rfl, SubstAll.any, Or.inl rfl, ?_⟩
    rintro ⟨v, hv⟩
    cases hv
  | hPair es ih =>
    intro hunb hnm vars hinv
    obtain ⟨vars', ts', heq, hf, hg, hne⟩ := generalizeGoList_unbound fuel σ es
      (fun x hx => ih x hx
        (fun v hv => hunb v (.pair hx hv))
        (fun i hi => hnm i (.pair hx hi)))
      vars hinv
    refine ⟨vars', .Pair ts', ?_, SubstAll.pair hf, hg, ?_⟩
    · simp [generalizeGo, heq]
    · rintro ⟨v, hv⟩
      cases hv with
      | pair hx hvx => exact hne ⟨_, hx, v, hvx⟩
  | hTuple es ih =>
    intro hunb hnm vars hinv
    obtain ⟨vars', ts', heq, hf, hg, hne⟩ := generalizeGoList_unbound fuel σ es
      (fun x hx => ih x hx
        (fun v hv => hunb v (.tuple hx hv))
        (fun i hi => hnm i (.tuple hx hi)))
      vars hinv
    refine ⟨vars', .Tuple ts', ?_, SubstAll.tuple hf, hg, ?_⟩
    · simp [generalizeGo, heq]
    · rintro ⟨v, hv⟩
      cases hv with
      | tuple hx hvx => exact hne ⟨_, hx, v, hvx⟩
  | hFun d c ihd ihc =>
    intro hunb hnm vars hinv
    obtain ⟨vars1, d1, heqd, hsd, hgd, hned⟩ := ihd
      (fun v hv => hunb v (.funDom hv)) (fun i hi => hnm i (.funDom hi)) vars hinv
    have hinv1 : vars1 = [] ∨ ∃ v0, vars1 = [(Ty.Hole v0, 0)] ∧ σ.lookup v0 = none := by
      rcases hgd with rfl | ⟨-, h⟩
      · exact hinv
      · exact Or.inr h
    obtain ⟨vars2, c1, heqc, hsc, hgc, hnec⟩ := ihc
      (fun v hv => hunb v (.funCod hv)) (fun i hi => hnm i (.funCod hi)) vars1 hinv1
    refine ⟨vars2, .Fun d1 c1, ?_, SubstAll.fn hsd hsc, ?_, ?_⟩
    · simp [generalizeGo, heqd, heqc]
    · rcases hgd with rfl | ⟨rfl, v0, hv0, hl0⟩
      · exact hgc
      · rcases hgc with rfl | ⟨hnil, -⟩
        · exact Or.inr ⟨rfl, v0, hv0, hl0⟩
        · rw [hv0] at hnil; cases hnil
    · rintro ⟨v, hv⟩
      cases hv with
      | funDom hvd =>
        have h1 : vars1 ≠ [] := hned ⟨v, hvd⟩
        rcases hgc with rfl | ⟨hnil, -⟩
        · exact h1
        · exact absurd hnil h1
      | funCod hvc => exact hnec ⟨v, hvc⟩
  | hApp n a iha =>
    intro hunb hnm vars hinv
    obtain ⟨vars', a1, heq, hs, hg, hne⟩ := iha
      (fun v hv => hunb v (.app hv)) (fun i hi => hnm i (.app hi)) vars hinv
    refine ⟨vars', .App n a1, ?_, SubstAll.app hs, hg, ?_⟩
    · simp [generalizeGo, heq]
    · rintro ⟨v, hv⟩
      cases hv with
      | app hva => exact hne ⟨v, hva⟩
  | hLocal t0 iht =>
    intro hunb hnm vars hinv
    obtain ⟨vars', t1, heq, hs, hg, hne⟩ := iht
      (fun v hv => hunb v (.loc hv)) (fun i hi => hnm i (.loc hi)) vars hinv
    refine ⟨vars', .Local t1, ?_, SubstAll.loc hs, hg, ?_⟩
    · simp [generalizeGo, heq]
    · rintro ⟨v, hv⟩
      cases hv with
      | loc hvt => exact hne ⟨v, hvt⟩
  | hCtor c =>
    intro _ _ vars hinv
    refine ⟨vars, .Constructor c, rfl, SubstAll.ctor, Or.inl rfl, ?_⟩
    rintro ⟨v, hv⟩
    cases hv
  | hMeta i =>
    intro _ hnm
    exact absurd MetaIn.here (hnm i)
  | hHole v =>
    intro hunb _ vars hinv
    have hv : σ.lookup v = none := hunb v .here
    rcases hinv with rfl | ⟨v0, rfl, hl0⟩
    · refine ⟨[(Ty.Hole v, 0)], .Meta 0, ?_, SubstAll.hole, ?_, ?_⟩
      · simp [generalizeGo, lookupByF]
      · exact Or.inr ⟨rfl, v, rfl, hv⟩
      · intro _; simp
    · refine ⟨[(Ty.Hole v0, 0)], .Meta 0, ?_, SubstAll.hole, Or.inl rfl, ?_⟩
      · simp only [generalizeGo, lookupByF]
        have : tyEq (fuel + 1) σ (.Hole v0) (.Hole v) = some true := by
          simp [tyEq, hl0, hv]
        rw [this]
      · intro _; simp

/-- C1 counterexample: `t = (Hole 0, Hole 1)` has `k = 2` distinct unbound
holes, but `generalize`'s tracking map is keyed by the holes' current
*values* — both `None` — so they collapse to one entry: `args = 1 ≠ 2` and
the round trip `instantiate (generalize t)` yields a pair holding the *same*
fresh cell twice, which is not isomorphic to `t` up to renaming of holes. -/
theorem generalize_roundtrip_cex :
    Ty.generalize 1 [] (.Pair [.Hole 0, .Hole 1])
      = some { args := 1, mono := .Pair [.Meta 0, .Meta 0] } ∧
    (1 : Nat) ≠ 2 ∧
    Scheme.instantiate { args := 1, mono := .Pair [.Meta 0, .Meta 0] } 5
      = some (.Pair [.Hole 5, .Hole 5], 6) :=
  ⟨rfl, by simp, rfl⟩

/-- C1 (amended): for a monomorphic `t` (no `Meta`) whose holes are all
unbound and which contains at least one hole, *all* unbound holes are
indistinguishable under the value-based keying and collapse to a single
`Meta` slot: `generalize(t)` is a `Scheme` with `args = 1` whose `mono` is
`t` with every hole replaced by `Meta 0`, and `instantiate(generalize(t))`
is `t` with every hole replaced by the *one* fresh hole.  The claimed
`args = k` / hole-for-hole round trip holds only for `k ≤ 1`. -/
theorem generalize_instantiate_roundtrip (fuel : Nat) (σ : Store) (t : Ty) (fresh : Nat)
    (hunb : ∀ v, HoleIn v t → σ.lookup v = none)
    (hnometa : ∀ i, ¬ MetaIn i t)
    (hhole : ∃ v, HoleIn v t) :
    ∃ mono, Ty.generalize (fuel + 1) σ t = some { args := 1, mono := mono } ∧
      SubstAll (.Meta 0) t mono ∧
      ∃ t2, Scheme.instantiate { args := 1, mono := mono } fresh = some (t2, fresh + 1) ∧
        SubstAll (.Hole fresh) t t2 := by
  obtain ⟨vars', mono, heq, hs, hg, hne⟩ :=
    generalizeGo_unbound fuel σ t hunb hnometa [] (Or.inl rfl)
  have hvars : ∃ v0, vars' = [(Ty.Hole v0, 0)] := by
    rcases hg with rfl | ⟨-, v0, hv0, -⟩
    · exact absurd rfl (hne hhole)
    · exact ⟨v0, hv0⟩
  obtain ⟨v0, rfl⟩ := hvars
  refine ⟨mono, ?_, hs, ?_⟩
  · simp [Ty.generalize, heq]
  · obtain ⟨t2, ht2, hst2⟩ := instantiateGo_of_subst fresh t mono hs
    exact ⟨t2, by simp [Scheme.instantiate, ht2], hst2⟩

/-- Witness for C1's amended statement at `t = Hole 0` (one unbound hole). -/
theorem generalize_instantiate_roundtrip_witness :
    ∃ mono, Ty.generalize 1 [] (.Hole 0) = some { args := 1, mono := mono } ∧
      SubstAll (.Meta 0) (.Hole 0) mono ∧
      ∃ t2, Scheme.instantiate { args := 1, mono := mono } 9 = some (t2, 9 + 1) ∧
        SubstAll (.Hole 9) (.Hole 0) t2 :=
  generalize_instantiate_roundtrip 0 [] (.Hole 0) 9
    (fun v hv => by cases hv; rfl)
    (fun i hi => by cases hi)
    ⟨0, HoleIn.here⟩
